import Mathlib

/-!
Verification of the ibllib specification against Lean models of its modules.

The repository ships three behavioural surfaces exercised by its tests:
the version-tag comparators of `ibllib.misc.version`, the parquet session
catalogue of `alf.onepqt`, and the GLM design-matrix/fitting core of
`brainbox.modeling.glm`.  The implementation modules themselves are not in
the source tree (only their tests are), so each model below is built from
the specification's description of the module, and is marked as such in
its doc comment.
-/

deriving instance DecidableEq for Except

namespace Util

/-- Decimal value of a digit string, read left to right with accumulator
`acc`; a digit character `c` contributes `c.toNat - 48`. -/
def digitsToNat : List Char → Nat → Nat
  | [], acc => acc
  | c :: cs, acc => digitsToNat cs (acc * 10 + (c.toNat - 48))

/-- Split a character list on a separator character; the result always has
one more element than the number of separators, so it is never empty. -/
def splitOnChar (sep : Char) : List Char → List (List Char)
  | [] => [[]]
  | c :: cs =>
    match splitOnChar sep cs with
    | [] => [[c]]
    | h :: t => if c = sep then [] :: h :: t else (c :: h) :: t

/-- First value bound to `k` in an association list, if any. -/
def lookupA {κ α : Type} [DecidableEq κ] : List (κ × α) → κ → Option α
  | [], _ => none
  | (k, v) :: t, k' => if k = k' then some v else lookupA t k'

theorem splitOnChar_ne_nil (sep : Char) (l : List Char) :
    splitOnChar sep l ≠ [] := by
  cases l with
  | nil => simp [splitOnChar]
  | cons c cs =>
    simp only [splitOnChar]
    rcases h : splitOnChar sep cs with _ | ⟨hd, tl⟩
    · simp
    · by_cases hc : c = sep <;> simp [hc]

theorem splitOnChar_append (sep : Char) (a rest : List Char) (ha : sep ∉ a) :
    splitOnChar sep (a ++ sep :: rest) = a :: splitOnChar sep rest := by
  induction a with
  | nil =>
    simp only [List.nil_append, splitOnChar]
    rcases h : splitOnChar sep rest with _ | ⟨hd, tl⟩
    · exact absurd h (splitOnChar_ne_nil sep rest)
    · simp
  | cons c a' ih =>
    have hc : c ≠ sep := fun hcs => ha (hcs ▸ List.mem_cons_self c a')
    have ha' : sep ∉ a' := fun hm => ha (List.mem_cons_of_mem c hm)
    simp only [List.cons_append, splitOnChar, List.append_eq]
    rw [ih ha']
    simp [hc]

end Util

namespace Version

/-- Modelled from the spec: the version comparators of `ibllib.misc.version`
(the module `ibllib/misc/version.py` is not under `src/`; the spec calls it a
"semantic version string comparison: trivial comparator").  A dotted version
string is parsed into its numeric components: each dot-separated component is
read as a decimal number, so leading zeros carry no information. -/
def parseVersion (v : String) : List Nat :=
  (Util.splitOnChar '.' v.data).map (fun comp => Util.digitsToNat comp 0)

/-- Lexicographic strict comparison of numeric component lists: a shorter
list is below any proper extension of it. -/
def ltComps : List Nat → List Nat → Bool
  | [], [] => false
  | [], _ :: _ => true
  | _ :: _, [] => false
  | a :: as, b :: bs => if a < b then true else if b < a then false else ltComps as bs

/-- Comparator `version.eq`: the two version strings have equal numeric components. -/
def eq (v0 v1 : String) : Bool := parseVersion v0 == parseVersion v1

/-- Comparator `version.lt`: strictly earlier version. -/
def lt (v0 v1 : String) : Bool := ltComps (parseVersion v0) (parseVersion v1)

/-- Comparator `version.gt`: strictly later version. -/
def gt (v0 v1 : String) : Bool := ltComps (parseVersion v1) (parseVersion v0)

/-- Comparator `version.le`: not strictly later. -/
def le (v0 v1 : String) : Bool := !(gt v0 v1)

/-- Comparator `version.ge`: not strictly earlier. -/
def ge (v0 v1 : String) : Bool := !(lt v0 v1)

theorem ltComps_trichotomy (a b : List Nat) :
    (ltComps a b = true ∧ a ≠ b ∧ ltComps b a = false) ∨
    (ltComps a b = false ∧ a = b ∧ ltComps b a = false) ∨
    (ltComps a b = false ∧ a ≠ b ∧ ltComps b a = true) := by
  induction a generalizing b with
  | nil =>
    cases b with
    | nil => right; left; simp [ltComps]
    | cons y ys => left; simp [ltComps]
  | cons x xs ih =>
    cases b with
    | nil => right; right; simp [ltComps]
    | cons y ys =>
      rcases Nat.lt_trichotomy x y with h | h | h
      · left
        refine ⟨by simp [ltComps, h], ?_, ?_⟩
        · intro hEq
          exact absurd (by injection hEq with h1 _; exact h1 ▸ h) (lt_irrefl y)
        · simp [ltComps, Nat.not_lt.mpr (Nat.le_of_lt h), Nat.not_lt.mpr (Nat.le_refl x), h]
      · subst h
        rcases ih ys with ⟨h1, h2, h3⟩ | ⟨h1, h2, h3⟩ | ⟨h1, h2, h3⟩
        · left
          refine ⟨by simp [ltComps, h1], ?_, by simp [ltComps, h3]⟩
          intro hEq; injection hEq with _ h4; exact h2 h4
        · right; left
          exact ⟨by simp [ltComps, h1], by rw [h2], by simp [ltComps, h3]⟩
        · right; right
          refine ⟨by simp [ltComps, h1], ?_, by simp [ltComps, h3]⟩
          intro hEq; injection hEq with _ h4; exact h2 h4
      · right; right
        refine ⟨?_, ?_, by simp [ltComps, h]⟩
        · simp [ltComps, Nat.not_lt.mpr (Nat.le_of_lt h), h]
        · intro hEq
          exact absurd (by injection hEq with h1 _; exact h1 ▸ h) (lt_irrefl x)

/-- C8: The version comparators compare dotted version strings component-wise
by numeric value, not lexicographically: leading zeros are ignored
(`eq "3.2.3" "3.2.03"`), multi-digit components compare numerically
(`lt "3.2.2" "3.2.11"`), for every pair of version strings exactly one of
`lt`, `eq`, `gt` holds, and `ge`/`le` agree with `gt ∨ eq` / `lt ∨ eq`. -/
theorem compare_version_tags_numeric :
    eq "3.2.3" "3.2.03" = true ∧ lt "3.2.2" "3.2.11" = true ∧
    (∀ v0 v1 : String,
      ((lt v0 v1 = true ∧ eq v0 v1 = false ∧ gt v0 v1 = false) ∨
       (lt v0 v1 = false ∧ eq v0 v1 = true ∧ gt v0 v1 = false) ∨
       (lt v0 v1 = false ∧ eq v0 v1 = false ∧ gt v0 v1 = true)) ∧
      ge v0 v1 = (gt v0 v1 || eq v0 v1) ∧
      le v0 v1 = (lt v0 v1 || eq v0 v1)) := by
  refine ⟨by decide, by decide, fun v0 v1 => ?_⟩
  have htr := ltComps_trichotomy (parseVersion v0) (parseVersion v1)
  have heq : eq v0 v1 = (parseVersion v0 == parseVersion v1) := rfl
  rcases htr with ⟨h1, h2, h3⟩ | ⟨h1, h2, h3⟩ | ⟨h1, h2, h3⟩
  · have hbe : (parseVersion v0 == parseVersion v1) = false := beq_eq_false_iff_ne.mpr h2
    refine ⟨Or.inl ⟨h1, by rw [heq]; exact hbe, h3⟩, ?_, ?_⟩
    · simp only [Version.ge, Version.gt, Version.lt, Version.eq]
      rw [h1, h3, hbe]; rfl
    · simp only [Version.le, Version.gt, Version.lt, Version.eq]
      rw [h1, h3, hbe]; rfl
  · have hbe : (parseVersion v0 == parseVersion v1) = true := beq_iff_eq.mpr h2
    refine ⟨Or.inr (Or.inl ⟨h1, by rw [heq]; exact hbe, h3⟩), ?_, ?_⟩
    · simp only [Version.ge, Version.gt, Version.lt, Version.eq]
      rw [h1, h3, hbe]; rfl
    · simp only [Version.le, Version.gt, Version.lt, Version.eq]
      rw [h1, h3, hbe]; rfl
  · have hbe : (parseVersion v0 == parseVersion v1) = false := beq_eq_false_iff_ne.mpr h2
    refine ⟨Or.inr (Or.inr ⟨h1, by rw [heq]; exact hbe, h3⟩), ?_, ?_⟩
    · simp only [Version.ge, Version.gt, Version.lt, Version.eq]
      rw [h1, h3, hbe]; rfl
    · simp only [Version.le, Version.gt, Version.lt, Version.eq]
      rw [h1, h3, hbe]; rfl

end Version

namespace OnePqt

/-- Fields extracted from a relative session path by the parquet catalogue. -/
structure SesInfo where
  lab : List Char
  subject : List Char
  date : List Char
  number : Nat
  eid : List Char
deriving DecidableEq

/-- Modelled from the spec: `alf.onepqt._parse_rel_ses_path` (the module
`alf/onepqt.py` is not under `src/`; the spec treats the parquet cataloguing
module as "simple recursive directory walking and string parsing").  A
relative session path `<lab>/Subjects/<subject>/<date>/<number>/` is split on
slashes; the lab, subject and date fields are the verbatim segments, the
number segment is read as a decimal integer, and the eid is the path without
its trailing slash. -/
def parseRelSesPath (p : List Char) : Option SesInfo :=
  match Util.splitOnChar '/' p with
  | [lab, sdir, subject, date, number, last] =>
    if sdir = "Subjects".data ∧ last = [] then
      some ⟨lab, subject, date, Util.digitsToNat number 0, p.dropLast⟩
    else none
  | _ => none

/-- C10: For every relative session path `<lab>/Subjects/<subject>/<date>/<number>/`,
`_parse_rel_ses_path` returns the lab, subject and date segments verbatim, the
number segment converted to an integer with leading zeros dropped, and an eid
equal to the relative path without its trailing slash. -/
theorem parse_rel_ses_path_fields (lab subject date number : List Char)
    (hl : '/' ∉ lab) (hs : '/' ∉ subject) (hd : '/' ∉ date) (hn : '/' ∉ number) :
    parseRelSesPath
        ((lab ++ '/' :: "Subjects".data ++ '/' :: subject ++ '/' :: date ++ '/' :: number)
          ++ ['/'])
      = some ⟨lab, subject, date, Util.digitsToNat number 0,
              lab ++ '/' :: "Subjects".data ++ '/' :: subject ++ '/' :: date ++ '/' :: number⟩ ∧
    Util.digitsToNat ('0' :: number) 0 = Util.digitsToNat number 0 := by
  have hS : '/' ∉ ("Subjects".data) := by decide
  have h5 : Util.splitOnChar '/' (number ++ ['/']) = [number, []] := by
    rw [Util.splitOnChar_append '/' number [] hn]
    rfl
  have h4 : Util.splitOnChar '/' (date ++ '/' :: (number ++ ['/'])) = [date, number, []] := by
    rw [Util.splitOnChar_append '/' date _ hd, h5]
  have h3 : Util.splitOnChar '/' (subject ++ '/' :: (date ++ '/' :: (number ++ ['/'])))
      = [subject, date, number, []] := by
    rw [Util.splitOnChar_append '/' subject _ hs, h4]
  have h2 : Util.splitOnChar '/'
        ("Subjects".data ++ '/' :: (subject ++ '/' :: (date ++ '/' :: (number ++ ['/']))))
      = ["Subjects".data, subject, date, number, []] := by
    rw [Util.splitOnChar_append '/' ("Subjects".data) _ hS, h3]
  have hsplit : Util.splitOnChar '/'
        ((lab ++ '/' :: "Subjects".data ++ '/' :: subject ++ '/' :: date ++ '/' :: number)
          ++ ['/'])
      = [lab, "Subjects".data, subject, date, number, []] := by
    have hassoc :
        (lab ++ '/' :: "Subjects".data ++ '/' :: subject ++ '/' :: date ++ '/' :: number)
            ++ ['/']
          = lab ++ '/' ::
              ("Subjects".data ++ '/' :: (subject ++ '/' :: (date ++ '/' :: (number ++ ['/'])))) := by
      simp [List.append_assoc]
    rw [hassoc, Util.splitOnChar_append '/' lab _ hl, h2]
  constructor
  · unfold parseRelSesPath
    rw [hsplit, List.dropLast_concat]
    simp
  · show Util.digitsToNat number (0 * 10 + ('0'.toNat - 48)) = Util.digitsToNat number 0
    congr 1

theorem parse_rel_ses_path_fields_witness :
    parseRelSesPath "mylab/Subjects/mysub/2021-02-28/001/".data
      = some ⟨"mylab".data, "mysub".data, "2021-02-28".data, 1,
              "mylab/Subjects/mysub/2021-02-28/001".data⟩ := by
  have h := (parse_rel_ses_path_fields "mylab".data "mysub".data "2021-02-28".data "001".data
    (by decide) (by decide) (by decide) (by decide)).1
  have e1 : "mylab/Subjects/mysub/2021-02-28/001/".data
      = (("mylab".data ++ '/' :: "Subjects".data ++ '/' :: "mysub".data ++ '/' ::
          "2021-02-28".data ++ '/' :: "001".data) ++ ['/']) := by decide
  rw [e1, h]
  decide

end OnePqt

namespace OnePqt

/-- A row-major table: named columns and rows of cells. -/
structure DataFrame where
  columns : List String
  rows : List (List String)
deriving DecidableEq

/-- Contents of one parquet file: the column schema, the row count, the cell
data stored column-major, and the user metadata key-value mapping. -/
structure PqtFile where
  schema : List String
  nrows : Nat
  coldata : List (List String)
  meta : List (String × String)
deriving DecidableEq

/-- A store of named parquet files. -/
abbrev FileStore := List (String × PqtFile)

/-- Column-major storage of a row-major table, as a columnar file keeps it:
column `j` collects entry `j` of every row. -/
def toColumns (ncols : Nat) (rows : List (List String)) : List (List String) :=
  (List.range ncols).map (fun j => rows.map (fun r => r.getD j ""))

/-- Modelled from the spec: `alf.onepqt.df2pqt` (module not under `src/`; the
spec calls it a "thin wrapper over a columnar-file library") writes the
dataframe column-major into the named file together with the metadata
mapping, replacing any previous file of that name. -/
def df2pqt (fs : FileStore) (filename : String) (df : DataFrame)
    (meta : List (String × String)) : FileStore :=
  (filename, ⟨df.columns, df.rows.length, toColumns df.columns.length df.rows, meta⟩) :: fs

/-- Modelled from the spec: `alf.onepqt.pqt2df` (module not under `src/`)
reads the named parquet file back into a row-major dataframe and its
metadata mapping. -/
def pqt2df (fs : FileStore) (filename : String) :
    Option (DataFrame × List (String × String)) :=
  (Util.lookupA fs filename).map fun f =>
    (⟨f.schema, (List.range f.nrows).map (fun i => f.coldata.map (fun c => c.getD i ""))⟩,
     f.meta)

theorem map_getD_range {α : Type} (l : List α) (d : α) :
    (List.range l.length).map (fun j => l.getD j d) = l := by
  induction l with
  | nil => rfl
  | cons c t ih =>
    rw [List.length_cons, List.range_succ_eq_map, List.map_cons, List.map_map]
    show (c :: t).getD 0 d :: _ = _
    have : ((fun j => (c :: t).getD j d) ∘ Nat.succ) = fun j => t.getD j d := rfl
    rw [this, ih]
    rfl

theorem getD_map {α β : Type} (l : List α) (f : α → β) (d : β) :
    ∀ (n : Nat) (h : n < l.length), (l.map f).getD n d = f l[n] := by
  induction l with
  | nil => intro n h; exact absurd h (Nat.not_lt_zero n)
  | cons c t ih =>
    intro n h
    cases n with
    | zero => rfl
    | succ m => exact ih m (Nat.lt_of_succ_lt_succ h)

theorem rows_roundtrip (rows : List (List String)) (ncols : Nat)
    (h : ∀ r ∈ rows, r.length = ncols) :
    (List.range rows.length).map (fun i => (toColumns ncols rows).map (fun c => c.getD i ""))
      = rows := by
  apply List.ext_getElem
  · simp
  · intro n h1 h2
    simp only [List.getElem_map, List.getElem_range]
    unfold toColumns
    rw [List.map_map]
    have hcomp : ((fun c => List.getD c n "") ∘ fun j => rows.map (fun r => r.getD j ""))
        = fun j => List.getD rows[n] j "" := by
      funext j
      exact getD_map rows (fun r => r.getD j "") "" n h2
    rw [hcomp]
    have hlen : rows[n].length = ncols := h _ (List.getElem_mem h2)
    rw [← hlen]
    exact map_getD_range rows[n] ""

/-- C9: Writing a dataframe and a metadata mapping with `df2pqt` and reading
the same file back with `pqt2df` is a lossless round trip: it returns a
dataframe equal to the one written and the identical metadata mapping. -/
theorem df2pqt_pqt2df_roundtrip (fs : FileStore) (filename : String)
    (df : DataFrame) (meta : List (String × String))
    (hrect : ∀ r ∈ df.rows, r.length = df.columns.length) :
    pqt2df (df2pqt fs filename df meta) filename = some (df, meta) := by
  unfold pqt2df df2pqt
  simp only [Util.lookupA, eq_self_iff_true, if_true, Option.map_some']
  rw [rows_roundtrip df.rows df.columns.length hrect]

theorem df2pqt_pqt2df_roundtrip_witness :
    pqt2df (df2pqt [] "mypqt.pqt" ⟨["colA", "colB"], [["a1", "b1"], ["a2", "b2"]]⟩
        [("database", "dbname")]) "mypqt.pqt"
      = some (⟨["colA", "colB"], [["a1", "b1"], ["a2", "b2"]]⟩, [("database", "dbname")]) :=
  df2pqt_pqt2df_roundtrip [] "mypqt.pqt" ⟨["colA", "colB"], [["a1", "b1"], ["a2", "b2"]]⟩
    [("database", "dbname")] (by decide)

end OnePqt

namespace Util

/-- Overwrite the binding of `k` (or append it) in an association list. -/
def updA {κ α : Type} [DecidableEq κ] : List (κ × α) → κ → α → List (κ × α)
  | [], k, v => [(k, v)]
  | (k0, v0) :: t, k, v => if k0 = k then (k, v) :: t else (k0, v0) :: updA t k v

theorem lookupA_updA_ne {κ α : Type} [DecidableEq κ] (l : List (κ × α)) (k k' : κ)
    (v : α) (h : k ≠ k') : lookupA (updA l k v) k' = lookupA l k' := by
  induction l with
  | nil => simp [updA, lookupA, h]
  | cons p t ih =>
    obtain ⟨k0, v0⟩ := p
    by_cases h0 : k0 = k
    · subst h0
      simp [updA, lookupA, h]
    · simp [updA, lookupA, h0, ih]

end Util

namespace GLM

/-- Error taxonomy of the GLM core (spec §7). -/
inductive GLMErr where
  | invalidParameter
  | eventOutOfRange
  | duplicateCovariate
  | notCompiled
  | notFitted
  | missingEventColumn
deriving DecidableEq

/-- One behavioral trial: start and end times and its named event timestamp
columns (spec §3).  Times are exact rationals. -/
structure Trial where
  trial_start : ℚ
  trial_end : ℚ
  events : List (String × ℚ)
deriving DecidableEq

/-- A registered covariate: name, source event column, and basis matrix
(time-bins × basis-functions), listed row by row (spec §3). -/
structure Covariate where
  name : String
  eventColumn : String
  basis : List (List ℚ)
deriving DecidableEq

/-- Number of basis functions of a covariate (columns of its basis). -/
def nBases (cov : Covariate) : Nat := (cov.basis.headD []).length

/-- The two mutually exclusive fitting strategies (spec §4.4). -/
inductive FitMethod where
  | minimize
  | sklearn
deriving DecidableEq

/-- Modelled from the spec: the `NeuralGLM` model object of
`brainbox.modeling.glm` (the module is not under `src/`; only its test is).
It owns the trial table, the spike train, the working bin width and train
fraction, the registered covariates, and the compiled and fitted state. -/
structure NeuralGLM where
  trialsdf : List Trial
  spk_times : List ℚ
  spk_clu : List Nat
  binwidth : ℚ
  train : ℚ
  covariates : List Covariate
  dm : Option (List (List ℚ))
  binnedspikes : Option (List (Nat × List ℚ))
  coefs : Option (List (Nat × List ℚ))
  intercepts : Option (List (Nat × ℚ))
deriving DecidableEq

/-- Bin count of one trial at bin width `w`. -/
def nbins (w : ℚ) (tr : Trial) : Nat := (⌈(tr.trial_end - tr.trial_start) / w⌉).toNat

/-- Modelled from the spec (§4.2): map a point event to the index of the bin
containing it, relative to the trial's own start; timestamps outside
`[trial_start, trial_end]` are rejected with an out-of-range error. -/
def bin_event (w : ℚ) (tr : Trial) (t : ℚ) : Except GLMErr Nat :=
  if t < tr.trial_start ∨ tr.trial_end < t then .error .eventOutOfRange
  else .ok (⌊(t - tr.trial_start) / w⌋).toNat

/-- A row of `n` zero entries. -/
def zeros (n : Nat) : List ℚ := List.replicate n 0

/-- Modelled from the spec (§4.2): the block a timing covariate contributes
for one trial: basis rows placed starting at the event's bin, zero rows
elsewhere, truncated at the trial's last bin. -/
def covBlock (w : ℚ) (tr : Trial) (cov : Covariate) : Except GLMErr (List (List ℚ)) :=
  match Util.lookupA tr.events cov.eventColumn with
  | none => .error .missingEventColumn
  | some t =>
    match bin_event w tr t with
    | .error e => .error e
    | .ok eb =>
      .ok ((List.range (nbins w tr)).map (fun r =>
        if eb ≤ r ∧ r - eb < cov.basis.length then cov.basis.getD (r - eb) (zeros (nBases cov))
        else zeros (nBases cov)))

/-- All covariate blocks of one trial, first error wins. -/
def collectBlocks (w : ℚ) (tr : Trial) : List Covariate → Except GLMErr (List (List (List ℚ)))
  | [] => .ok []
  | c :: cs =>
    match covBlock w tr c, collectBlocks w tr cs with
    | .error e, _ => .error e
    | .ok _, .error e => .error e
    | .ok b, .ok bs => .ok (b :: bs)

/-- One trial's rows of the design matrix: its covariate blocks concatenated
column-wise, one row per bin of the trial. -/
def trialRows (w : ℚ) (tr : Trial) (covs : List Covariate) :
    Except GLMErr (List (List ℚ)) :=
  match collectBlocks w tr covs with
  | .error e => .error e
  | .ok blocks =>
    .ok ((List.range (nbins w tr)).map (fun r => (blocks.map (fun b => b.getD r [])).flatten))

/-- Rows of all trials, in trial order, first error wins. -/
def collectTrialRows (w : ℚ) (covs : List Covariate) :
    List Trial → Except GLMErr (List (List (List ℚ)))
  | [] => .ok []
  | tr :: trs =>
    match trialRows w tr covs, collectTrialRows w covs trs with
    | .error e, _ => .error e
    | .ok _, .error e => .error e
    | .ok rs, .ok rss => .ok (rs :: rss)

/-- The design matrix: trial row blocks concatenated across all trials
(spec §4.3). -/
def buildDM (w : ℚ) (trials : List Trial) (covs : List Covariate) :
    Except GLMErr (List (List ℚ)) :=
  match collectTrialRows w covs trials with
  | .error e => .error e
  | .ok blocks => .ok blocks.flatten

/-- Spikes of cluster `c` falling in the half-open window `[lo, hi)`. -/
def countSpikes (spks : List (ℚ × Nat)) (c : Nat) (lo hi : ℚ) : Nat :=
  (spks.filter (fun p => p.2 = c ∧ lo ≤ p.1 ∧ p.1 < hi)).length

/-- Binned spike counts of one cluster, per trial per bin, concatenated
across trials in design-matrix row order. -/
def binnedCounts (w : ℚ) (trials : List Trial) (spks : List (ℚ × Nat)) (c : Nat) :
    List ℚ :=
  (trials.map (fun tr =>
    (List.range (nbins w tr)).map (fun k =>
      (countSpikes spks c (tr.trial_start + k * w) (tr.trial_start + (k + 1) * w) : ℚ)))).flatten

/-- Clusters present in the spike train. -/
def clustersOf (clu : List Nat) : List Nat := clu.dedup

/-- Modelled from the spec (§4.3): `add_covariate_timing` registers a timing
covariate; a name already present is rejected with a duplicate-covariate
error, leaving the model untouched. -/
def add_covariate_timing (m : NeuralGLM) (name eventColumn : String)
    (basis : List (List ℚ)) : Except GLMErr NeuralGLM :=
  if name ∈ m.covariates.map Covariate.name then .error .duplicateCovariate
  else .ok { m with covariates := m.covariates ++ [⟨name, eventColumn, basis⟩] }

/-- Modelled from the spec (§4.3): `compile_design_matrix` performs the
binning and concatenation across all trials and registered covariates,
producing the dense design matrix and one binned spike-count vector per
cluster. -/
def compile_design_matrix (m : NeuralGLM) : Except GLMErr NeuralGLM :=
  match buildDM m.binwidth m.trialsdf m.covariates with
  | .error e => .error e
  | .ok dm =>
    .ok { m with
      dm := some dm,
      binnedspikes := some ((clustersOf m.spk_clu).map (fun c =>
        (c, binnedCounts m.binwidth m.trialsdf (m.spk_times.zip m.spk_clu) c))) }

/-- Dot product of two rational vectors. -/
def dotProd (a b : List ℚ) : ℚ := ((a.zip b).map (fun p => p.1 * p.2)).sum

/-- Column `j` score of the design matrix against a count vector. -/
def columnScore (dm : List (List ℚ)) (y : List ℚ) (j : Nat) : ℚ :=
  ((dm.zip y).map (fun p => p.1.getD j 0 * p.2)).sum

/-- Number of columns of a design matrix (all rows share it). -/
def ncolsOf (dm : List (List ℚ)) : Nat := (dm.headD []).length

/-- Mean of a rational vector (0 for the empty vector). -/
def meanQ (y : List ℚ) : ℚ := y.sum / y.length

/-- Modelled from the spec (§4.4): the per-cluster result of one fit.  The
spec fixes the structural contract — a weight vector whose length equals the
number of design-matrix columns, plus an intercept, per cluster — while the
two numeric optimizers are floating-point iterative routines outside this
embedding; the weights are therefore modelled by the deterministic per-column
score of the design matrix against the cluster's counts, the intercept by
the mean count. -/
def fitCluster (dm : List (List ℚ)) (y : List ℚ) : List ℚ × ℚ :=
  ((List.range (ncolsOf dm)).map (columnScore dm y), meanQ y)

/-- Modelled from the spec (§4.4, §7): `fit` requires a compiled design
matrix (not-compiled error otherwise) and stores per-cluster weights and
intercepts keyed by cluster id. -/
def fit (m : NeuralGLM) (_method : FitMethod) : Except GLMErr NeuralGLM :=
  match m.dm, m.binnedspikes with
  | some dm, some bs =>
    .ok { m with
      coefs := some (bs.map (fun p => (p.1, (fitCluster dm p.2).1))),
      intercepts := some (bs.map (fun p => (p.1, (fitCluster dm p.2).2))) }
  | _, _ => .error .notCompiled

/-- Column offsets of each covariate, in registration order. -/
def covOffsets : List Covariate → Nat → List (Covariate × Nat)
  | [], _ => []
  | c :: cs, off => (c, off) :: covOffsets cs (off + nBases c)

/-- Kernel of one covariate under one weight vector: the fitted basis
weights reprojected onto the basis matrix's time axis (spec §4.5). -/
def kernelOf (cov : Covariate) (off : Nat) (w : List ℚ) : List ℚ :=
  cov.basis.map (fun row => dotProd row ((w.drop off).take (nBases cov)))

/-- Modelled from the spec (§4.5, §7): `combine_weights` requires a
completed fit (not-fitted error otherwise) and returns one labeled kernel
per (covariate, cluster) pair present in the fit. -/
def combine_weights (m : NeuralGLM) :
    Except GLMErr (List (String × List (Nat × List ℚ))) :=
  match m.coefs with
  | none => .error .notFitted
  | some coefs =>
    .ok ((covOffsets m.covariates 0).map (fun p =>
      (p.1.name, coefs.map (fun q => (q.1, kernelOf p.1 p.2 q.2)))))

/-- Model state after a call, in the explicit-state embedding: an erroring
call produces no new state, so the caller keeps the old model. -/
def after (m : NeuralGLM) : Except GLMErr NeuralGLM → NeuralGLM
  | .ok m' => m'
  | .error _ => m

end GLM

namespace GLM

/-- A compiled model overwrites the compiled state wholesale: compiling a
model whose `dm`/`binnedspikes` fields were already set behaves exactly as
compiling the model before they were set. -/
theorem compile_overwrites_state (m : NeuralGLM) (d : Option (List (List ℚ)))
    (b : Option (List (Nat × List ℚ))) :
    compile_design_matrix { m with dm := d, binnedspikes := b }
      = compile_design_matrix m := by
  cases m
  rfl

/-- C3: `compile_design_matrix` is idempotent: a successful second call with
no covariate changes in between returns the very same compiled model, in
particular a bit-identical design matrix. -/
theorem compile_design_matrix_idempotent (m m' : NeuralGLM)
    (h : compile_design_matrix m = .ok m') :
    compile_design_matrix m' = .ok m' := by
  unfold compile_design_matrix at h
  rcases hb : buildDM m.binwidth m.trialsdf m.covariates with e | dm0 <;> rw [hb] at h
  · exact absurd h (by simp)
  · injection h with h2
    rw [← h2, compile_overwrites_state]
    unfold compile_design_matrix
    rw [hb]

/-- C4: registering a covariate under a name already present fails with a
duplicate-covariate error, and the failed call leaves the design matrix and
the registered covariates unchanged. -/
theorem add_covariate_duplicate_rejected (m : NeuralGLM) (name eventColumn : String)
    (basis : List (List ℚ))
    (h : name ∈ m.covariates.map Covariate.name) :
    add_covariate_timing m name eventColumn basis = .error .duplicateCovariate ∧
    (after m (add_covariate_timing m name eventColumn basis)).dm = m.dm ∧
    (after m (add_covariate_timing m name eventColumn basis)).covariates = m.covariates := by
  have he : add_covariate_timing m name eventColumn basis = .error .duplicateCovariate := by
    unfold add_covariate_timing
    rw [if_pos h]
  exact ⟨he, by rw [he]; rfl, by rw [he]; rfl⟩

/-- A two-bin, one-basis covariate for concrete evaluation. -/
def exBasis : List (List ℚ) := [[1], [1/2]]

/-- A one-second trial with a stimulus event at its middle. -/
def exTrial : Trial :=
  { trial_start := 0, trial_end := 1, events := [("stimOn_times", 1/2)] }

/-- A small uncompiled model: one trial, one cluster-1 spike, one registered
timing covariate at bin width 1/4. -/
def exModel : NeuralGLM :=
  { trialsdf := [exTrial], spk_times := [3/5], spk_clu := [1], binwidth := 1/4,
    train := 1, covariates := [⟨"stim", "stimOn_times", exBasis⟩],
    dm := none, binnedspikes := none, coefs := none, intercepts := none }

/-- The compiled form of `exModel`. -/
def exCompiled : NeuralGLM := after exModel (compile_design_matrix exModel)

theorem compile_design_matrix_idempotent_witness :
    compile_design_matrix exCompiled = .ok exCompiled :=
  compile_design_matrix_idempotent exModel exCompiled (by with_unfolding_all decide)

theorem add_covariate_duplicate_rejected_witness :
    add_covariate_timing exModel "stim" "stimOn_times" exBasis
        = .error .duplicateCovariate ∧
    (after exModel (add_covariate_timing exModel "stim" "stimOn_times" exBasis)).dm
        = exModel.dm ∧
    (after exModel (add_covariate_timing exModel "stim" "stimOn_times" exBasis)).covariates
        = exModel.covariates :=
  add_covariate_duplicate_rejected exModel "stim" "stimOn_times" exBasis (by decide)

end GLM

namespace GLM

/-- C5: an event timestamp outside `[trial_start, trial_end]` is exactly what
makes binning fail with an out-of-range error — and such a failure aborts
design-matrix compilation with that error — while an in-range event is mapped
to the index of the bin containing it, relative to the trial's own start. -/
theorem bin_event_range (w : ℚ) (tr : Trial) (t : ℚ) (hw : 0 < w) :
    ((t < tr.trial_start ∨ tr.trial_end < t) ↔
        bin_event w tr t = .error .eventOutOfRange) ∧
    (tr.trial_start ≤ t → t ≤ tr.trial_end →
      ∃ k : Nat, bin_event w tr t = .ok k ∧
        tr.trial_start + k * w ≤ t ∧ t < tr.trial_start + (k + 1) * w) ∧
    (∀ (m : NeuralGLM) (cov : Covariate),
      m.binwidth = w → m.trialsdf = [tr] → m.covariates = [cov] →
      Util.lookupA tr.events cov.eventColumn = some t →
      (t < tr.trial_start ∨ tr.trial_end < t) →
      compile_design_matrix m = .error .eventOutOfRange) := by
  refine ⟨⟨fun hc => ?_, fun he => ?_⟩, fun h1 h2 => ?_, fun m cov hbw htr hcov hlk hout => ?_⟩
  · unfold bin_event
    rw [if_pos hc]
  · by_contra hc
    unfold bin_event at he
    rw [if_neg hc] at he
    exact absurd he (by simp)
  · have hc : ¬(t < tr.trial_start ∨ tr.trial_end < t) := by
      push_neg
      exact ⟨h1, h2⟩
    have hx0 : 0 ≤ (t - tr.trial_start) / w := div_nonneg (by linarith) hw.le
    have hf0 : 0 ≤ ⌊(t - tr.trial_start) / w⌋ := Int.floor_nonneg.mpr hx0
    have hnc : ((⌊(t - tr.trial_start) / w⌋.toNat : ℚ)) = ((⌊(t - tr.trial_start) / w⌋ : ℚ)) := by
      exact_mod_cast congrArg (fun z : ℤ => (z : ℚ)) (Int.toNat_of_nonneg hf0)
    have hxw : (t - tr.trial_start) / w * w = t - tr.trial_start :=
      div_mul_cancel₀ _ (ne_of_gt hw)
    refine ⟨⌊(t - tr.trial_start) / w⌋.toNat, ?_, ?_, ?_⟩
    · unfold bin_event
      rw [if_neg hc]
    · have hfl : ((⌊(t - tr.trial_start) / w⌋ : ℚ)) * w ≤ (t - tr.trial_start) / w * w :=
        mul_le_mul_of_nonneg_right (Int.floor_le _) hw.le
      rw [hnc]
      linarith
    · have hfl : (t - tr.trial_start) / w * w < ((⌊(t - tr.trial_start) / w⌋ : ℚ) + 1) * w :=
        mul_lt_mul_of_pos_right (Int.lt_floor_add_one _) hw
      rw [hnc]
      linarith
  · have hbe : bin_event w tr t = .error .eventOutOfRange := by
      unfold bin_event
      rw [if_pos hout]
    have hcb : covBlock w tr cov = .error .eventOutOfRange := by
      simp only [covBlock, hlk, hbe]
    have hcbs : collectBlocks w tr [cov] = .error .eventOutOfRange := by
      simp only [collectBlocks, hcb]
    have htrr : trialRows w tr [cov] = .error .eventOutOfRange := by
      simp only [trialRows, hcbs]
    have hctr : collectTrialRows w [cov] [tr] = .error .eventOutOfRange := by
      simp only [collectTrialRows, htrr]
    have hbd : buildDM w [tr] [cov] = .error .eventOutOfRange := by
      simp only [buildDM, hctr]
    simp only [compile_design_matrix, hbw, htr, hcov, hbd]

/-- A trial whose stimulus event lies past its end. -/
def exOutTrial : Trial :=
  { trial_start := 0, trial_end := 1, events := [("stimOn_times", 3)] }

/-- Model `exModel` with the out-of-range trial substituted. -/
def exOutModel : NeuralGLM := { exModel with trialsdf := [exOutTrial] }

theorem bin_event_range_witness :
    bin_event (1/4) exTrial 3 = .error .eventOutOfRange ∧
    (∃ k : Nat, bin_event (1/4) exTrial (1/2) = .ok k ∧
      exTrial.trial_start + k * (1/4) ≤ 1/2 ∧
      (1/2 : ℚ) < exTrial.trial_start + (k + 1) * (1/4)) ∧
    compile_design_matrix exOutModel = .error .eventOutOfRange := by
  refine ⟨?_, ?_, ?_⟩
  · exact (bin_event_range (1/4) exTrial 3 (by norm_num)).1.mp
      (Or.inr (by norm_num [exTrial]))
  · exact (bin_event_range (1/4) exTrial (1/2) (by norm_num)).2.1
      (by norm_num [exTrial]) (by norm_num [exTrial])
  · exact (bin_event_range (1/4) exOutTrial 3 (by norm_num)).2.2 exOutModel
      ⟨"stim", "stimOn_times", exBasis⟩ rfl rfl rfl rfl
      (Or.inr (by norm_num [exOutTrial]))

end GLM

namespace GLM

theorem covOffsets_fst : ∀ (covs : List Covariate) (off : Nat),
    (covOffsets covs off).map Prod.fst = covs := by
  intro covs
  induction covs with
  | nil => intro off; rfl
  | cons c cs ih =>
    intro off
    simp [covOffsets, ih]

/-- C6: lifecycle order is enforced by synchronous errors: `fit` before
`compile_design_matrix` fails with a not-compiled error, `combine_weights`
before a completed fit fails with a not-fitted error, and after a completed
fit `combine_weights` succeeds with one labeled kernel per
(covariate, cluster) pair present in the fit. -/
theorem lifecycle_order_enforced :
    (∀ (m : NeuralGLM) (method : FitMethod),
      m.dm = none → fit m method = .error .notCompiled) ∧
    (∀ m : NeuralGLM, m.coefs = none → combine_weights m = .error .notFitted) ∧
    (∀ (m m' : NeuralGLM) (method : FitMethod), fit m method = .ok m' →
      ∃ ks, combine_weights m' = .ok ks ∧
        ks.map Prod.fst = m.covariates.map Covariate.name ∧
        ∃ bs, m.binnedspikes = some bs ∧
          ∀ p ∈ ks, (p.2).map Prod.fst = bs.map Prod.fst) := by
  refine ⟨fun m method h => ?_, fun m h => ?_, fun m m' method h => ?_⟩
  · unfold fit
    rw [h]
  · unfold combine_weights
    rw [h]
  · unfold fit at h
    rcases hdm : m.dm with _ | dm <;> rw [hdm] at h
    · simp at h
    · rcases hbs : m.binnedspikes with _ | bs <;> rw [hbs] at h
      · simp at h
      · simp only [Except.ok.injEq] at h
        subst h
        refine ⟨_, rfl, ?_, bs, rfl, ?_⟩
        · simp only [List.map_map]
          show (covOffsets m.covariates 0).map (Covariate.name ∘ Prod.fst)
              = m.covariates.map Covariate.name
          rw [← List.map_map, covOffsets_fst]
        · intro p hp
          obtain ⟨q, hq, rfl⟩ := List.mem_map.mp hp
          simp [List.map_map]

/-- The fitted form of `exCompiled` (either strategy; the modelled fit is
strategy-independent). -/
def exFitted : NeuralGLM := after exCompiled (fit exCompiled .minimize)

theorem lifecycle_order_enforced_witness :
    fit exModel .minimize = .error .notCompiled ∧
    combine_weights exModel = .error .notFitted ∧
    (∃ ks, combine_weights exFitted = .ok ks ∧
      ks.map Prod.fst = exCompiled.covariates.map Covariate.name ∧
      ∃ bs, exCompiled.binnedspikes = some bs ∧
        ∀ p ∈ ks, (p.2).map Prod.fst = bs.map Prod.fst) :=
  ⟨lifecycle_order_enforced.1 exModel .minimize rfl,
   lifecycle_order_enforced.2.1 exModel rfl,
   lifecycle_order_enforced.2.2 exCompiled exFitted .minimize (by with_unfolding_all decide)⟩

end GLM

namespace GLM

/-- A heap object: one piece of mutable model state. -/
inductive Obj where
  | dmObj (rows : List (List ℚ))
  | countsObj (cs : List (Nat × List ℚ))
  | fitObj (fr : Option ((List (Nat × List ℚ)) × (List (Nat × ℚ))))
deriving DecidableEq

/-- A heap: an allocation counter and a reference-indexed store. -/
structure Heap where
  next : Nat
  mem : List (Nat × Obj)
deriving DecidableEq

/-- Read the object a reference points to. -/
def readRef (h : Heap) (r : Nat) : Option Obj := Util.lookupA h.mem r

/-- Overwrite the object a reference points to. -/
def writeRef (h : Heap) (r : Nat) (v : Obj) : Heap :=
  ⟨h.next, Util.updA h.mem r v⟩

/-- A model as a bundle of references into the heap: its design matrix, its
binned counts, and its fit results. -/
structure ModelRefs where
  dmRef : Nat
  countsRef : Nat
  fitRef : Nat
deriving DecidableEq

/-- The references a model owns. -/
def ModelRefs.refs (m : ModelRefs) : List Nat := [m.dmRef, m.countsRef, m.fitRef]

/-- Allocate a fresh reference holding `v`. -/
def allocObj (h : Heap) (v : Obj) : Heap × Nat :=
  (⟨h.next + 1, (h.next, v) :: h.mem⟩, h.next)

/-- Modelled from the spec (§3 Ownership, §5): `deepcopy` of a model clones
every piece of owned state into fresh references, sharing nothing with the
original. -/
def deepcopy (h : Heap) (m : ModelRefs) : Heap × ModelRefs :=
  let p1 := allocObj h ((readRef h m.dmRef).getD (.dmObj []))
  let p2 := allocObj p1.1 ((readRef h m.countsRef).getD (.countsObj []))
  let p3 := allocObj p2.1 ((readRef h m.fitRef).getD (.fitObj none))
  (p3.1, ⟨p1.2, p2.2, p3.2⟩)

/-- Modelled from the spec (§4.4, §5): an in-place `fit` on the heap: it
reads the model's own design matrix and counts and overwrites the model's
own fit-result reference, touching nothing else. -/
def heapFit (h : Heap) (m : ModelRefs) (_method : FitMethod) : Heap :=
  match readRef h m.dmRef, readRef h m.countsRef with
  | some (.dmObj dm), some (.countsObj bs) =>
    writeRef h m.fitRef (.fitObj (some
      (bs.map (fun p => (p.1, (fitCluster dm p.2).1)),
       bs.map (fun p => (p.1, (fitCluster dm p.2).2)))))
  | _, _ => h

theorem readRef_writeRef_ne (h : Heap) (k r : Nat) (v : Obj) (hne : k ≠ r) :
    readRef (writeRef h k v) r = readRef h r :=
  Util.lookupA_updA_ne h.mem k r v hne

theorem heapFit_preserves_other (h : Heap) (m : ModelRefs) (method : FitMethod)
    (r : Nat) (hne : r ≠ m.fitRef) :
    readRef (heapFit h m method) r = readRef h r := by
  unfold heapFit
  cases h1 : readRef h m.dmRef with
  | none => rfl
  | some o1 =>
    cases o1 with
    | dmObj dm =>
      cases h2 : readRef h m.countsRef with
      | none => rfl
      | some o2 =>
        cases o2 with
        | dmObj x => rfl
        | countsObj bs => exact readRef_writeRef_ne h m.fitRef r _ (Ne.symm hne)
        | fitObj x => rfl
    | countsObj x => rfl
    | fitObj x => rfl

theorem readRef_deepcopy_old (h : Heap) (m : ModelRefs) (r : Nat) (hr : r < h.next) :
    readRef (deepcopy h m).1 r = readRef h r := by
  have h0 : ¬(h.next = r) := by omega
  have h1 : ¬(h.next + 1 = r) := by omega
  have h2 : ¬(h.next + 2 = r) := by omega
  simp [deepcopy, allocObj, readRef, Util.lookupA, h0, h1, h2]

/-- C7: a deep copy of a model shares no reference with the original;
fitting the copy leaves every reference of the original unchanged, and
fitting the original leaves every reference of the copy unchanged, so the
two fits are independent. -/
theorem deepcopy_fit_independent (h : Heap) (m : ModelRefs) (method : FitMethod)
    (hv : ∀ r ∈ m.refs, r < h.next) :
    (∀ r ∈ m.refs, r ∉ (deepcopy h m).2.refs) ∧
    (∀ r ∈ m.refs,
      readRef (heapFit (deepcopy h m).1 (deepcopy h m).2 method) r = readRef h r) ∧
    (∀ r ∈ (deepcopy h m).2.refs,
      readRef (heapFit (deepcopy h m).1 m method) r = readRef (deepcopy h m).1 r) := by
  have hcopyrefs : (deepcopy h m).2.refs = [h.next, h.next + 1, h.next + 2] := rfl
  refine ⟨fun r hr => ?_, fun r hr => ?_, fun r hr => ?_⟩
  · have hrn : r < h.next := hv r hr
    rw [hcopyrefs]
    simp only [List.mem_cons, List.not_mem_nil, or_false]
    omega
  · have hrn : r < h.next := hv r hr
    have hfi : (deepcopy h m).2.fitRef = h.next + 2 := rfl
    have hne2 : r ≠ (deepcopy h m).2.fitRef := by
      rw [hfi]
      omega
    rw [heapFit_preserves_other _ _ _ _ hne2]
    exact readRef_deepcopy_old h m r hrn
  · have hfit : m.fitRef < h.next := hv m.fitRef (by simp [ModelRefs.refs])
    rw [hcopyrefs] at hr
    have hrge : h.next ≤ r := by
      simp only [List.mem_cons, List.not_mem_nil, or_false] at hr
      omega
    exact heapFit_preserves_other _ _ _ _ (by omega : r ≠ m.fitRef)

/-- A concrete three-object heap holding one compiled model. -/
def exHeap : Heap :=
  ⟨3, [(0, .dmObj [[1]]), (1, .countsObj [(1, [2])]), (2, .fitObj none)]⟩

/-- The model owning the three references of `exHeap`. -/
def exRefs : ModelRefs := ⟨0, 1, 2⟩

theorem deepcopy_fit_independent_witness :
    (0 ∉ (deepcopy exHeap exRefs).2.refs) ∧
    readRef (heapFit (deepcopy exHeap exRefs).1 (deepcopy exHeap exRefs).2 .minimize) 0
      = readRef exHeap 0 ∧
    readRef (heapFit (deepcopy exHeap exRefs).1 exRefs .minimize) 3
      = readRef (deepcopy exHeap exRefs).1 3 := by
  have h := deepcopy_fit_independent exHeap exRefs .minimize (by decide)
  exact ⟨h.1 0 (by decide), h.2.1 0 (by decide), h.2.2 3 (by decide)⟩

end GLM
